import Mathlib

/-!
Verification of the xmlParser C sources (attribute.c, tag.c, node.c, xml.c)
through a shallow embedding.  Streams are `List Char` (an empty list plays the
role of EOF for `fgetc`), C strings are `List Char`, the NUL terminator of a C
string is modelled by the character `'\x00'` where the source walks an index
over a NUL-terminated buffer.  Linked lists of attributes (`XML_Attribute.next`)
and of sibling nodes (`XML_Node.next`) are modelled as Lean lists; a "pointer to
a node inside a sibling chain" is the suffix of that list starting at the node.
The loops of the source that can fail to terminate (missing EOF checks in
readXMLAttribute) are modelled by explicit `hangs` outcomes, and while-loops
whose body consumes input through function calls use a fuel counter larger than
the input, so that exhaustion is unreachable on terminating runs.
-/

/-- One `name="value"` pair, mirroring `struct XML_Attribute` of attribute.h
(the `next` pointer becomes the tail of the containing list). -/
structure XMLAttribute where
  name : List Char
  value : List Char
deriving DecidableEq, Repr

/-- `enum XML_TagType` of tag.h. -/
inductive XMLTagType where
  | OPENING
  | CLOSING
  | UNIQUE
  | UNKNOWN
deriving DecidableEq, Repr

/-- `struct XML_Tag` of tag.h: `attr` points at the last added attribute,
so the head of the list is the most recently added one. -/
structure XMLTag where
  name : List Char
  attr : List XMLAttribute
  type : XMLTagType
deriving DecidableEq, Repr

/-- `struct XML_Node` of node.h.  The doubly linked sibling chain reachable by
walking `next` from `first` is modelled as the list `children`; `first` is its
head and `last` its final element.  The children counter `cc` is kept as an
explicit field exactly as in the source (it is maintained separately from the
chain by `addXMLNodeToParent`), so its agreement with `children.length` is a
real invariant, not a construction artifact. -/
inductive XMLNode where
  | mk (name : List Char) (value : Option (List Char)) (attr : List XMLAttribute)
       (children : List XMLNode) (cc : Nat)

def XMLNode.name : XMLNode → List Char
  | .mk n _ _ _ _ => n

def XMLNode.value : XMLNode → Option (List Char)
  | .mk _ v _ _ _ => v

def XMLNode.attr : XMLNode → List XMLAttribute
  | .mk _ _ a _ _ => a

def XMLNode.children : XMLNode → List XMLNode
  | .mk _ _ _ c _ => c

def XMLNode.cc : XMLNode → Nat
  | .mk _ _ _ _ k => k

mutual

/-- `cc` agrees with the length of the sibling chain `first .. last`,
recursively at every node. -/
def ccOk : XMLNode → Bool
  | .mk _ _ _ cs cc => (cc == cs.length) && ccOkList cs

def ccOkList : List XMLNode → Bool
  | [] => true
  | c :: cs => ccOk c && ccOkList cs

end

/-- `fgetc`: reads one character, `none` is EOF. -/
def fgetc : List Char → Option Char × List Char
  | [] => (none, [])
  | c :: s => (some c, s)

/-! ## attribute.c -/

/-- The unchecked accumulation loops of `readXMLAttribute`
(`while(charBuffer != '=')` and `while(charBuffer != '"')`): characters are
copied until the stop character.  The source never tests for EOF, so when the
stream ends first the C loop keeps reading EOF and writing past the buffer
forever; that outcome is `none` here. -/
def scanUntil (stop : Char) : List Char → Option (List Char × List Char)
  | [] => none
  | c :: s =>
    if c = stop then some ([], s)
    else
      match scanUntil stop s with
      | none => none
      | some (a, r) => some (c :: a, r)

/-- Outcome of `readXMLAttribute` (attribute.c:266).  `badParse` is the
`logError("Badly parsed XML file.")` return of NULL when the character after
`=` is not `"`; `hangsName`/`hangsValue` mark the two accumulation loops that
never terminate when EOF arrives before their stop character. -/
inductive ReadAttrResult where
  | ok (attr : XMLAttribute) (rest : List Char)
  | badParse (rest : List Char)
  | hangsName
  | hangsValue
deriving DecidableEq, Repr

/-- `readXMLAttribute` of attribute.c: name up to `=`, a mandatory `"`,
value up to the closing `"`. -/
def readXMLAttribute (s : List Char) : ReadAttrResult :=
  match scanUntil '=' s with
  | none => .hangsName
  | some (nm, s1) =>
    match s1 with
    | [] => .badParse []
    | q :: s2 =>
      if q = '"' then
        match scanUntil '"' s2 with
        | none => .hangsValue
        | some (v, s3) => .ok ⟨nm, v⟩ s3
      else .badParse s2

/-! ## tag.c -/

/-- The prepend of `addAttributeToXMLTag` (tag.c:207) on the attribute list
(the two source branches both make `attr` the new head). -/
def addAttributeList (a : XMLAttribute) : List XMLAttribute → List XMLAttribute
  | [] => [a]
  | b :: rest => a :: b :: rest

/-- `addAttributeToXMLTag` of tag.c:207: the attribute becomes the new head of
the tag's list. -/
def addAttributeToXMLTag (a : XMLAttribute) (t : XMLTag) : XMLTag :=
  { t with attr := addAttributeList a t.attr }

/-- The transfer loop of `initXMLNodeFromXMLTag` (node.c:378):
`while(tag->attr != NULL) addAttributeToXMLNode(deleteAttributeFromXMLTag(tag), n)`
pops the head of the tag's list and prepends it to the node's list. -/
def initAttrs : List XMLAttribute → List XMLAttribute → List XMLAttribute
  | [], acc => acc
  | a :: rest, acc => initAttrs rest (a :: acc)

/-- `createXMLNode` plus `initXMLNodeFromXMLTag` (node.c:367): fresh node with
the tag's name and the tag's attributes moved over one by one. -/
def initXMLNodeFromXMLTag (t : XMLTag) : XMLNode :=
  .mk t.name none (initAttrs t.attr []) [] 0

/-- The node currently being built by `parseXMLFile`: same data as a node, but
still open (its children list is still growing). -/
structure Frame where
  name : List Char
  value : Option (List Char)
  attr : List XMLAttribute
  children : List XMLNode
  cc : Nat

/-- `createXMLNode` plus `initXMLNodeFromXMLTag`, kept open as a frame for the
parser cursor. -/
def initFrameFromXMLTag (t : XMLTag) : Frame :=
  ⟨t.name, none, initAttrs t.attr [], [], 0⟩

/-- Closing a frame turns it into a node. -/
def finishNode (f : Frame) : XMLNode :=
  .mk f.name f.value f.attr f.children f.cc

/-- The characters written into `strBuffer` of `readXMLTag` are tracked by
(index) so the buffer-safety part of the overflow contract can be stated. -/
def cbChar : Option Char → Char
  | some c => c
  | none => '\xFF'

/-- The name accumulation loop of `readXMLTag` (tag.c:292): copy characters
until one of `' '`, `'>'`, `'/'`, EOF, with the overflow check
`if(i >= XML_BUFFER_LENGTH) return NULL` after each write.  The result carries
the accumulated name, the terminating character (`none` = EOF) and the rest of
the stream, or `none` on overflow; the second component lists every index of
`strBuffer` written (including the final NUL). -/
def tagNameLoop : Option Char → List Char → Nat → List Char →
    Option (List Char × Option Char × List Char) × List Nat
  | none, s, i, acc => (some (acc.reverse, none, s), [i])
  | some c, s, i, acc =>
    if c = ' ' ∨ c = '>' ∨ c = '/' then (some (acc.reverse, some c, s), [i])
    else
      match s with
      | [] =>
        if 200 ≤ i + 1 then (none, [i])
        else (some ((c :: acc).reverse, none, []), [i, i + 1])
      | d :: s2 =>
        if 200 ≤ i + 1 then (none, [i])
        else
          let r := tagNameLoop (some d) s2 (i + 1) (c :: acc)
          (r.1, i :: r.2)

/-- One constructor per `logError` exit of `readXMLTag`. -/
inductive TagErr where
  | bufferFull      -- "XML reading buffer strBuffer is full"
  | badUniqueClose  -- "Badly parsed XML file." after '/' (tag.c:328)
  | closingUnique   -- "XML parser found a closing unique tag !"
  | eofInTag        -- "Reached EOF while reading XML tag"
  | unknownChar     -- "Unknown character after tag's name."
  | badClose        -- "Badly parsed XML file." final check (tag.c:377)
deriving DecidableEq, Repr

/-- Result of `readXMLTag`; `hangs` propagates a non-terminating
`readXMLAttribute` call. -/
inductive ReadTagResult where
  | ok (tag : XMLTag) (rest : List Char)
  | err (e : TagErr)
  | hangs
deriving DecidableEq, Repr

/-- The attribute loop of `readXMLTag` (tag.c:360):
`while(charBuffer == ' ')` read one attribute and fetch the next character;
afterwards `'>'` makes the tag OPENING, `'/'` makes it UNIQUE (with one more
fetch), and the final check requires `'>'`.  Each iteration consumes input, so
fuel larger than the stream length never runs out; exhaustion is reported as
`hangs`. -/
def attrPhase : Nat → Option Char → List Char → List XMLAttribute → List Char →
    List Nat → ReadTagResult × List Nat
  | 0, _, _, _, _, ws => (.hangs, ws)
  | fuel + 1, cb, s, attrs, nm, ws =>
    if cb = some ' ' then
      match readXMLAttribute s with
      | .hangsName => (.hangs, ws)
      | .hangsValue => (.hangs, ws)
      | .badParse rest =>
        let f := fgetc rest
        attrPhase fuel f.1 f.2 attrs nm ws
      | .ok attr rest =>
        let f := fgetc rest
        attrPhase fuel f.1 f.2 (addAttributeList attr attrs) nm ws
    else
      match cb with
      | some '>' => (.ok ⟨nm, attrs, .OPENING⟩ s, ws)
      | some '/' =>
        match fgetc s with
        | (some '>', s3) => (.ok ⟨nm, attrs, .UNIQUE⟩ s3, ws)
        | _ => (.err .badClose, ws)
      | _ => (.err .badClose, ws)

/-- The switch over the character terminating the name (tag.c:313) and
everything after it. -/
def finishTag (ty0 : XMLTagType)
    (nl : Option (List Char × Option Char × List Char) × List Nat)
    (pre : List Nat) : ReadTagResult × List Nat :=
  match nl.1 with
  | none => (.err .bufferFull, pre ++ nl.2)
  | some (nm, term, s2) =>
    let ws := pre ++ nl.2
    match term with
    | none => (.err .eofInTag, ws)
    | some '>' => (.ok ⟨nm, [], if ty0 = .UNKNOWN then .OPENING else ty0⟩ s2, ws)
    | some '/' =>
      match ty0 with
      | .UNKNOWN =>
        match fgetc s2 with
        | (some '>', s3) => (.ok ⟨nm, [], .UNIQUE⟩ s3, ws)
        | _ => (.err .badUniqueClose, ws)
      | _ => (.err .closingUnique, ws)
    | some ' ' =>
      match ty0 with
      | .UNKNOWN => attrPhase (s2.length + 1) (some ' ') s2 [] nm ws
      | _ => (.err .badClose, ws)
    | some _ => (.err .unknownChar, ws)

/-- `readXMLTag` of tag.c:265 together with the list of indices of its
`strBuffer` that get written.  An initial `'<'` is skipped; `'/'` right after
it marks a CLOSING tag, any other character (even `(char)EOF`) is written at
index 0 before the name loop starts at index 1. -/
def readXMLTagCore (s : List Char) : ReadTagResult × List Nat :=
  let f1 := fgetc s
  let f2 := if f1.1 = some '<' then fgetc f1.2 else f1
  if f2.1 = some '/' then
    let f3 := fgetc f2.2
    finishTag .CLOSING (tagNameLoop f3.1 f3.2 0 []) []
  else
    let f3 := fgetc f2.2
    finishTag .UNKNOWN (tagNameLoop f3.1 f3.2 1 [cbChar f2.1]) [0]

def readXMLTag (s : List Char) : ReadTagResult :=
  (readXMLTagCore s).1

def readXMLTagWrites (s : List Char) : List Nat :=
  (readXMLTagCore s).2

/-! ## node.c : readXMLNodeValue and addXMLNodeToParent -/

/-- Outcome of `readXMLNodeValue`: either a value was copied into the node
(`setValue`), or the function returned without touching it (tag start reached
before any printable character, or EOF in either loop — on EOF the source
returns before `setXMLNodeValue`, discarding what was accumulated). -/
inductive NodeValueOut where
  | setValue (v : List Char) (rest : List Char)
  | noSet (rest : List Char)
deriving DecidableEq, Repr

/-- Second loop of `readXMLNodeValue` (node.c:468): accumulate characters in
`[' ', '~']`, stop at `'<'`, `'\n'`, `'\r'`; silently skip other bytes; EOF
returns without setting the value. -/
def nodeValueLoop2 : List Char → List Char → NodeValueOut
  | [], _ => .noSet []
  | c :: s, acc =>
    if c = '<' ∨ c = '\n' ∨ c = '\r' then .setValue acc.reverse s
    else if ' ' ≤ c ∧ c ≤ '~' then nodeValueLoop2 s (c :: acc)
    else nodeValueLoop2 s acc

/-- First loop of `readXMLNodeValue` (node.c:447): skip bytes outside
`['!', '~']`; `'<'` means no value; the first printable byte starts
accumulation; EOF returns without setting the value. -/
def nodeValueLoop1 : List Char → NodeValueOut
  | [] => .noSet []
  | c :: s =>
    if c = '<' then .noSet s
    else if '!' ≤ c ∧ c ≤ '~' then nodeValueLoop2 s [c]
    else nodeValueLoop1 s

/-- `readXMLNodeValue` of node.c:440 acting on the open frame of the current
node (`setXMLNodeValue` replaces any previous value). -/
def readXMLNodeValue (f : Frame) (s : List Char) : Frame × List Char :=
  match nodeValueLoop1 s with
  | .noSet r => (f, r)
  | .setValue v r => ({ f with value := some v }, r)

/-- Effect of `addXMLNodeToParent` (node.c:287) on the parent when attaching a
completed child: the child is appended to the sibling chain (it becomes
`last`; `first`/`current` are also set when the chain was empty) and `cc` is
incremented.  The guard checks of the source are trivially satisfied here
because the parser only ever attaches freshly created nodes; the pointer-level
version with all guards is `addXMLNodeToParentPtr` below. -/
def addXMLNodeToParent (parent : Frame) (child : XMLNode) : Frame :=
  match parent.children with
  | [] => { parent with cc := parent.cc + 1, children := [child] }
  | b :: rest => { parent with cc := parent.cc + 1, children := (b :: rest) ++ [child] }

/-- `parent->cc++` done by `addXMLNodeToParent` at the moment an OPENING tag
attaches a new (still open) child; the child itself is appended to `children`
when it is closed (`closeInto`). -/
def bumpCC (f : Frame) : Frame :=
  { f with cc := f.cc + 1 }

/-- Ascending on a CLOSING tag: the now-complete child that
`addXMLNodeToParent` linked into the parent's chain when it was opened is
recorded in the parent's children list (its `cc` was already counted by
`bumpCC`). -/
def closeInto (f : Frame) (cur : Frame) : Frame :=
  { f with children := f.children ++ [finishNode cur] }

/-! ## xml.c : parseXMLFile -/

/-- One constructor per `logError` exit of `parseXMLFile`. -/
inductive ParseErr where
  | nothingToParse  -- "Nothing to parse"
  | firstClosing    -- "First tag is a closing tag"
  | treeUnfinished  -- "No tag remaining, and tree isn't finished"
deriving DecidableEq, Repr

inductive ParseOut where
  | ok (root : XMLNode) (rest : List Char)
  | err (e : ParseErr)
  | hangs

/-- The `while(endOfParsing == 0)` loop of `parseXMLFile` (xml.c:208), as a
zipper: `cur` is the currently open node, `stack` its open ancestors (head =
nearest).  Each iteration reads the node's value and then one tag.  OPENING
attaches and descends, UNIQUE attaches in place, CLOSING ascends, or — when
`current->parent == NULL` — ends parsing; the source's final
`if(root != current)` check cannot fire, since `endOfParsing` is set only when
the cursor is at the root.  A failed tag read is the
"No tag remaining, and tree isn't finished" error.  Each successful iteration
consumes input, so the fuel chosen by `parseXMLFile` never runs out on
terminating runs. -/
def parseLoop : Nat → List Char → Frame → List Frame → ParseOut
  | 0, _, _, _ => .hangs
  | fuel + 1, s, cur, stack =>
    let v := readXMLNodeValue cur s
    match readXMLTag v.2 with
    | .hangs => .hangs
    | .err _ => .err .treeUnfinished
    | .ok tag s2 =>
      match tag.type with
      | .OPENING => parseLoop fuel s2 (initFrameFromXMLTag tag) (bumpCC v.1 :: stack)
      | .UNIQUE => parseLoop fuel s2 (addXMLNodeToParent v.1 (initXMLNodeFromXMLTag tag)) stack
      | .CLOSING =>
        match stack with
        | f :: rest => parseLoop fuel s2 (closeInto f v.1) rest
        | [] => .ok (finishNode v.1) s2
      | .UNKNOWN => parseLoop fuel s2 v.1 stack

/-- `parseXMLFile` of xml.c:174: read the first tag; CLOSING is rejected,
UNIQUE returns a single-node tree at once, anything else (the source's final
`else` branch) becomes the root and enters the main loop. -/
def parseXMLFile (s : List Char) : ParseOut :=
  match readXMLTag s with
  | .hangs => .hangs
  | .err _ => .err .nothingToParse
  | .ok tag s1 =>
    match tag.type with
    | .CLOSING => .err .firstClosing
    | .UNIQUE => .ok (initXMLNodeFromXMLTag tag) s1
    | _ => parseLoop (s1.length + 1) s1 (initFrameFromXMLTag tag) []

/-! ## xml.c : getXMLValue -/

/-- One constructor per `logError` exit of `getXMLValue` (the function returns
NULL exactly on these three paths; a NULL `path`/`xml` argument aside, there is
no NULL return without a diagnostic). -/
inductive GetValueErr where
  | endOfPath     -- "Reached end of path without ':' or '$'."
  | nameNotFound  -- "Didn't find a child with this name"
  | attrNotFound  -- "Didn't find an attribute with this name"
deriving DecidableEq, Repr

/-- The segment copy loop of `getXMLValue` (xml.c:297): characters up to the
next `'/'`, `':'`, `'$'` or the terminating NUL; returns the segment, the
delimiter (`'\x00'` at end of string) and the rest of the path after the
delimiter (`iPath++`). -/
def takeSeg : List Char → List Char × Char × List Char
  | [] => ([], '\x00', [])
  | c :: cs =>
    if c = '/' ∨ c = ':' ∨ c = '$' ∨ c = '\x00' then ([], c, cs)
    else
      let r := takeSeg cs
      (c :: r.1, r.2.1, r.2.2)

/-- The sibling scan `while((n != NULL) && (strcmp(strBuffer, n->name) != 0))
n = n->next;` : first suffix of the chain whose head has the wanted name. -/
def findSuffix (nm : List Char) : List XMLNode → Option (XMLNode × List XMLNode)
  | [] => none
  | n :: rest => if n.name = nm then some (n, rest) else findSuffix nm rest

/-- The attribute scan of `getXMLValue` (xml.c:345): head to tail, first
matching name. -/
def findAttr (nm : List Char) : List XMLAttribute → Option XMLAttribute
  | [] => none
  | a :: rest => if a.name = nm then some a else findAttr nm rest

/-- The `while(value == NULL)` loop of `getXMLValue` (xml.c:294).  Segment,
NUL check, sibling scan; on `'/'` descend into `first`; on `'$'` take the
node's value — if that value is NULL the loop keeps going (with the scan
position still at the found node), which on a path ending in `$` reads an
empty trailing segment and exits through the end-of-path error; on `':'` the
remainder of the path is the attribute name.  Fuel exhaustion is unreachable
for the fuel chosen by `getXMLValue` (each iteration consumes at least the
delimiter). -/
def getXMLValueGo : Nat → List Char → List XMLNode → Except GetValueErr (List Char)
  | 0, _, _ => .error .endOfPath
  | fuel + 1, path, ns =>
    let t := takeSeg path
    if t.2.1 = '\x00' then .error .endOfPath
    else
      match findSuffix t.1 ns with
      | none => .error .nameNotFound
      | some (n, tail) =>
        if t.2.1 = '/' then getXMLValueGo fuel t.2.2 n.children
        else if t.2.1 = '$' then
          match n.value with
          | some v => .ok v
          | none => getXMLValueGo fuel t.2.2 (n :: tail)
        else
          match findAttr t.2.2 n.attr with
          | some a => .ok a.value
          | none => .error .attrNotFound

/-- `getXMLValue` of xml.c:276, taking the sibling chain that starts at
`xml->root`. -/
def getXMLValue (path : List Char) (ns : List XMLNode) : Except GetValueErr (List Char) :=
  getXMLValueGo (path.length + 1) path ns

/-- A segment containing none of the path metacharacters. -/
def goodSeg (seg : List Char) : Prop :=
  ∀ c ∈ seg, c ≠ '/' ∧ c ≠ ':' ∧ c ≠ '$' ∧ c ≠ '\x00'

/-- The intended resolution of the node part of a `getXMLValue` path: each
`/`-separated segment selects the first matching node in the sibling chain at
the current level, descending into its children after each `/`. -/
inductive Resolves : List Char → List XMLNode → XMLNode → Prop where
  | last (seg : List Char) (sibs : List XMLNode) (n : XMLNode) (tail : List XMLNode)
      (hseg : goodSeg seg) (hfind : findSuffix seg sibs = some (n, tail)) :
      Resolves seg sibs n
  | step (seg rest : List Char) (sibs : List XMLNode) (m : XMLNode) (tail : List XMLNode)
      (n : XMLNode)
      (hseg : goodSeg seg) (hfind : findSuffix seg sibs = some (m, tail))
      (hrest : Resolves rest m.children n) :
      Resolves (seg ++ '/' :: rest) sibs n

/-! ## xml.c : getXMLNode -/

/-- Name copy loop of `getXMLNode` (xml.c:390): stop at `'/'`, `'?'`, NUL or
when the buffer index reaches capacity; the returned remainder is the path
after the stopping character (`iPath++`). -/
def scanName : List Char → Nat → List Char × Char × List Char
  | [], _ => ([], '\x00', [])
  | c :: rem, i =>
    if c = '/' ∨ c = '?' ∨ c = '\x00' ∨ 200 ≤ i then ([], c, rem)
    else
      let r := scanName rem (i + 1)
      (c :: r.1, r.2.1, r.2.2)

/-- The attribute-name do-while of `getXMLNode` (xml.c:408): it writes each
character into the buffer *before* testing it, so the terminating `'='` (or
NUL) is included in the buffer; the loop condition mistakenly tests `iNaBuf`
(the already-read node-name length, constant here) against the capacity.
Returns the raw characters written, the last character read, and the remaining
path. -/
def scanPredName (nb : Nat) : List Char → List Char × Char × List Char
  | [] => (['\x00'], '\x00', [])
  | c :: r =>
    if c = '=' ∨ c = '\x00' ∨ 200 ≤ nb then ([c], c, r)
    else
      let q := scanPredName nb r
      (c :: q.1, q.2.1, q.2.2)

/-- The attribute-value do-while of `getXMLNode` (xml.c:428): again the
terminator (`'/'` or NUL) is written into the buffer before the test; the
index really counts this buffer. -/
def scanPredValue : Nat → List Char → List Char × Char × List Char
  | _, [] => (['\x00'], '\x00', [])
  | vb, c :: r =>
    if c = '/' ∨ c = '\x00' ∨ 200 ≤ vb + 1 then ([c], c, r)
    else
      let q := scanPredValue (vb + 1) r
      (c :: q.1, q.2.1, q.2.2)

/-- The effective contents of a NUL-terminated C buffer: everything up to the
first NUL (this is what `strcmp` compares). -/
def cString (raw : List Char) : List Char :=
  raw.takeWhile (fun c => c ≠ '\x00')

/-- The inner attribute scan of `getXMLNode` (xml.c:456).  After a match is
found the cursor still advances (`attr = attr->next`), so the caller needs to
know whether the match was the last attribute: in that case the source's
`if(attr == NULL) n = n->next;` moves past the matched node. -/
def attrScan (an av : List Char) : List XMLAttribute → Option Bool
  | [] => none
  | a :: rest =>
    if a.name = an ∧ a.value = av then some rest.isEmpty
    else attrScan an av rest

/-- The `do { ... } while((!nodeFound) && (n != NULL))` search of `getXMLNode`
(xml.c:444).  Returns whether a node was accepted and the suffix of the chain
the cursor `n` points at afterwards (which, due to the advance-after-match
slip, is the *next* sibling whenever the matching attribute was last in its
list). -/
def nodeMatchLoop (hasPred : Bool) (nm an av : List Char) :
    List XMLNode → Bool × List XMLNode
  | [] => (false, [])
  | n :: rest =>
    if n.name ≠ nm then nodeMatchLoop hasPred nm an av rest
    else if !hasPred then (true, n :: rest)
    else
      match attrScan an av n.attr with
      | none => nodeMatchLoop hasPred nm an av rest
      | some wasLast => if wasLast then (true, rest) else (true, n :: rest)

/-- `getXMLNode` of xml.c:370.  When there is no `'?'` the source reads the
uninitialized `iAtBuf` in `else if(!iAtBuf)`; that read is modelled as 0 (no
predicate), the behaviour the surrounding code intends.  Dereferences of a
NULL cursor (`n->first` after the advance-past-match slip exhausted the chain)
are modelled as a `none` result. -/
def getXMLNodeGo : Nat → List Char → List XMLNode → Option XMLNode
  | 0, _, _ => none
  | fuel + 1, path, ns =>
    match ns with
    | [] => none
    | _ :: _ =>
      let t := scanName path 0
      let q : Option (List Char × List Char × Char × List Char) :=
        if t.2.1 = '?' then
          let an := scanPredName t.1.length t.2.2
          if an.2.1 = '=' then
            let av := scanPredValue 0 an.2.2.tail
            some (cString an.1, cString av.1, av.2.1, av.2.2.tail)
          else none
        else some ([], [], t.2.1, t.2.2)
      match q with
      | none => none
      | some (an, av, cb, rem) =>
        match nodeMatchLoop (t.2.1 == '?') t.1 an av ns with
        | (false, _) => none
        | (true, suffix) =>
          if cb = '/' then
            match suffix with
            | [] => none
            | n :: _ => getXMLNodeGo fuel rem n.children
          else if cb = '\x00' then
            match suffix with
            | [] => none
            | n :: _ => some n
          else none

def getXMLNode (path : List Char) (ns : List XMLNode) : Option XMLNode :=
  getXMLNodeGo (path.length + 1) path ns

/-! ## node.c : addXMLNodeToParent at the pointer level -/

/-- `struct XML_Node` with its pointer graph kept explicit: pointers are
indices into an arena, `none` is NULL. -/
structure CNode where
  name : List Char
  value : Option (List Char)
  attr : List XMLAttribute
  parent : Option Nat
  previous : Option Nat
  next : Option Nat
  first : Option Nat
  current : Option Nat
  last : Option Nat
  cc : Nat
deriving DecidableEq, Repr

abbrev Arena := List CNode

/-- Update the node at index `i` (no-op outside the arena). -/
def updA (a : Arena) (i : Nat) (f : CNode → CNode) : Arena :=
  match a.get? i with
  | some n => a.set i (f n)
  | none => a

/-- `addXMLNodeToParent` of node.c:287, one arena update per source statement,
in source order.  NULL arguments and a child that already has a parent or a
sibling leave the arena untouched (the source only logs a diagnostic). -/
def addXMLNodeToParentPtr (a : Arena) (parent child : Option Nat) : Arena :=
  match parent, child with
  | none, _ => a
  | some _, none => a
  | some pi, some ci =>
    match a.get? pi, a.get? ci with
    | some _, some c =>
      if c.parent ≠ none then a
      else if c.previous ≠ none ∨ c.next ≠ none then a
      else
        let a1 := updA a ci (fun n => { n with parent := some pi })
        let a2 := updA a1 pi (fun n => { n with cc := n.cc + 1 })
        match a2.get? pi with
        | some p2 =>
          match p2.last with
          | none =>
            updA a2 pi (fun n =>
              { n with first := some ci, current := some ci, last := some ci })
          | some l =>
            updA (updA (updA a2 l (fun n => { n with next := some ci }))
                    ci (fun n => { n with previous := some l }))
                 pi (fun n => { n with last := some ci })
        | none => a2
    | _, _ => a

/-- The parent pointer of node `i` (NULL outside the arena). -/
def parentOf (a : Arena) (i : Nat) : Option Nat :=
  match a.get? i with
  | some n => n.parent
  | none => none

/-- Following `parent` pointers `k` times. -/
def parentIter (a : Arena) : Nat → Nat → Option Nat
  | 0, i => some i
  | k + 1, i =>
    match parentOf a i with
    | some j => parentIter a k j
    | none => none

/-- Invariant of an open frame during parsing: its counter is the length of
its children chain plus the given number of still-open attached children, and
every completed child satisfies `ccOk`. -/
def frameOK (f : Frame) (pending : Nat) : Prop :=
  f.cc = f.children.length + pending ∧ ccOkList f.children = true

/-! ## Helper lemmas -/

theorem ccOkList_append (l1 l2 : List XMLNode) :
    ccOkList (l1 ++ l2) = (ccOkList l1 && ccOkList l2) := by
  induction l1 with
  | nil => simp [ccOkList]
  | cons c cs ih => simp [ccOkList, ih, Bool.and_assoc]

theorem initAttrs_eq (l acc : List XMLAttribute) :
    initAttrs l acc = l.reverse ++ acc := by
  induction l generalizing acc with
  | nil => simp [initAttrs]
  | cons a rest ih => simp [initAttrs, ih]

theorem addXMLNodeToParent_spec (p : Frame) (c : XMLNode) :
    (addXMLNodeToParent p c).cc = p.cc + 1
    ∧ (addXMLNodeToParent p c).children = p.children ++ [c]
    ∧ (addXMLNodeToParent p c).children.getLast? = some c := by
  cases hch : p.children with
  | nil => simp [addXMLNodeToParent, hch]
  | cons b rest =>
    refine ⟨by simp [addXMLNodeToParent, hch], by simp [addXMLNodeToParent, hch], ?_⟩
    have : (addXMLNodeToParent p c).children = (b :: rest) ++ [c] := by
      simp [addXMLNodeToParent, hch]
    rw [this, List.getLast?_concat]

theorem readXMLNodeValue_fst (f : Frame) (s : List Char) :
    (readXMLNodeValue f s).1.name = f.name
    ∧ (readXMLNodeValue f s).1.children = f.children
    ∧ (readXMLNodeValue f s).1.cc = f.cc := by
  unfold readXMLNodeValue
  cases nodeValueLoop1 s <;> simp

/-! ## Claim theorems -/

/-- Claim C1 (amended): parsing `<a x="1" y="2"/>` yields a *tag* whose
attribute list is in reverse document order (`y` then `x`), because
`addAttributeToXMLTag` makes every newly parsed attribute the new head; but
`initXMLNodeFromXMLTag` moves the attributes onto the node by popping the
tag's list and prepending each onto the node's list, which reverses them a
second time, so the *tree node* built from the tag carries its attributes in
document order (`x` then `y`). -/
theorem attrOrder_amended :
    (readXMLTag "<a x=\"1\" y=\"2\"/>".toList =
      .ok ⟨"a".toList, [⟨"y".toList, "2".toList⟩, ⟨"x".toList, "1".toList⟩], .UNIQUE⟩ [])
    ∧ (parseXMLFile "<a x=\"1\" y=\"2\"/>".toList =
      .ok (.mk "a".toList none
        [⟨"x".toList, "1".toList⟩, ⟨"y".toList, "2".toList⟩] [] 0) [])
    ∧ (∀ (a : XMLAttribute) (t : XMLTag), (addAttributeToXMLTag a t).attr = a :: t.attr)
    ∧ (∀ t : XMLTag, (initXMLNodeFromXMLTag t).attr = t.attr.reverse) := by
  refine ⟨rfl, rfl, ?_, ?_⟩
  · intro a t
    cases h : t.attr <;> simp [addAttributeToXMLTag, addAttributeList, h]
  · intro t
    simp [initXMLNodeFromXMLTag, XMLNode.attr, initAttrs_eq]

/-- Claim C1 (counterexample): the tree node parsed from `<a x="1" y="2"/>`
has attribute list `x, y` (document order), not `y, x` as the claim states. -/
theorem attrOrder_cex :
    (parseXMLFile "<a x=\"1\" y=\"2\"/>".toList =
      .ok (.mk "a".toList none
        [⟨"x".toList, "1".toList⟩, ⟨"y".toList, "2".toList⟩] [] 0) [])
    ∧ ([⟨"x".toList, "1".toList⟩, ⟨"y".toList, "2".toList⟩] : List XMLAttribute) ≠
      [⟨"y".toList, "2".toList⟩, ⟨"x".toList, "1".toList⟩] :=
  ⟨rfl, by decide⟩

/-- Claim C2 (code bug): for siblings `<item id="1"/><item id="2"/>`,
`getXMLNode "item?id=2"` returns NULL instead of the second node, because the
predicate parser stores the terminating `'='` inside the attribute-name buffer
(the do-while writes before testing) and the extra `iPath++` skips the first
character of the value, so the `strcmp` against real attributes can never
succeed.  The third conjunct exhibits the corrupted buffer: the parsed
attribute name for the path fragment `id=2` is the string `id=`. -/
theorem getXMLNode_predicate_bug :
    (getXMLNode "item?id=2".toList
      [.mk "item".toList none [⟨"id".toList, "1".toList⟩] [] 0,
       .mk "item".toList none [⟨"id".toList, "2".toList⟩] [] 0] = none)
    ∧ (getXMLNode "item?id=9".toList
      [.mk "item".toList none [⟨"id".toList, "1".toList⟩] [] 0,
       .mk "item".toList none [⟨"id".toList, "2".toList⟩] [] 0] = none)
    ∧ cString (scanPredName 4 "id=2".toList).1 = "id=".toList :=
  ⟨rfl, rfl, rfl⟩

/-- Claim C3 (code bug): `readXMLAttribute` has no EOF check in either
accumulation loop (the source's own todo admits it), so a stream that ends
before the `=` of the name makes the name loop read EOF forever instead of
failing with MalformedTag, and a stream that ends before the closing quote
makes the value loop read EOF forever instead of failing with
UnexpectedEndOfInput. -/
theorem readXMLAttribute_eof_hangs :
    readXMLAttribute "abc".toList = .hangsName
    ∧ readXMLAttribute "k=\"v".toList = .hangsValue :=
  ⟨rfl, rfl⟩

/-- Claim C5: an input whose first tag is the Unique tag `<a k="v"/>` parses
immediately to a single-node tree — name `a`, exactly the attribute `k="v"`,
no value, no children — and whatever follows the tag is left unconsumed. -/
theorem parse_unique_root :
    ∀ rest : List Char,
      parseXMLFile ("<a k=\"v\"/>".toList ++ rest) =
        .ok (.mk "a".toList none [⟨"k".toList, "v".toList⟩] [] 0) rest :=
  fun _ => rfl

theorem tagNameLoop_overflow :
    ∀ (cs : List Char) (c : Char) (rest : List Char) (i : Nat) (acc : List Char),
      ¬(c = ' ' ∨ c = '>' ∨ c = '/') →
      (∀ x ∈ cs, ¬(x = ' ' ∨ x = '>' ∨ x = '/')) →
      200 ≤ i + 1 + cs.length →
      (tagNameLoop (some c) (cs ++ rest) i acc).1 = none := by
  intro cs
  induction cs with
  | nil =>
    intro c rest i acc hc _ hlen
    have hov : 200 ≤ i + 1 := by simpa using hlen
    cases rest with
    | nil => simp [tagNameLoop, hc, hov]
    | cons d s2 => simp [tagNameLoop, hc, hov]
  | cons x cs ih =>
    intro c rest i acc hc hcs hlen
    have hx : ¬(x = ' ' ∨ x = '>' ∨ x = '/') := hcs x (by simp)
    by_cases hov : 200 ≤ i + 1
    · simp [tagNameLoop, hc, hov]
    · have hrec := ih x rest (i + 1) (c :: acc) hx
        (fun y hy => hcs y (by simp [hy]))
        (by simp at hlen ⊢; omega)
      simpa [tagNameLoop, hc, hov] using hrec

theorem tagNameLoop_writes :
    ∀ (s : List Char) (cb : Option Char) (i : Nat) (acc : List Char),
      i < 200 →
      ∀ j ∈ (tagNameLoop cb s i acc).2, j < 200 := by
  intro s
  induction s with
  | nil =>
    intro cb i acc hi j hj
    cases cb with
    | none => simp [tagNameLoop] at hj; omega
    | some c =>
      by_cases hterm : c = ' ' ∨ c = '>' ∨ c = '/'
      · simp [tagNameLoop, hterm] at hj; omega
      · by_cases hov : 200 ≤ i + 1
        · simp [tagNameLoop, hterm, hov] at hj; omega
        · simp [tagNameLoop, hterm, hov] at hj
          rcases hj with rfl | rfl <;> omega
  | cons d s2 ih =>
    intro cb i acc hi j hj
    cases cb with
    | none => simp [tagNameLoop] at hj; omega
    | some c =>
      by_cases hterm : c = ' ' ∨ c = '>' ∨ c = '/'
      · simp [tagNameLoop, hterm] at hj; omega
      · by_cases hov : 200 ≤ i + 1
        · simp [tagNameLoop, hterm, hov] at hj; omega
        · simp only [tagNameLoop, hterm, hov, if_neg, if_false, List.mem_cons] at hj
          rcases hj with rfl | hj
          · omega
          · exact ih (some d) (i + 1) (c :: acc) (by omega) j (by simpa using hj)

theorem attrPhase_snd :
    ∀ (fuel : Nat) (cb : Option Char) (s : List Char) (attrs : List XMLAttribute)
      (nm : List Char) (ws : List Nat),
      (attrPhase fuel cb s attrs nm ws).2 = ws := by
  intro fuel
  induction fuel with
  | zero => intro cb s attrs nm ws; rfl
  | succ fuel ih =>
    intro cb s attrs nm ws
    by_cases hcb : cb = some ' '
    · simp only [attrPhase, hcb, if_pos]
      cases readXMLAttribute s with
      | hangsName => rfl
      | hangsValue => rfl
      | badParse rest => exact ih _ _ _ _ _
      | ok attr rest => exact ih _ _ _ _ _
    · simp only [attrPhase, if_neg hcb]
      split
      · rfl
      · split <;> rfl
      · rfl

theorem finishTag_snd (ty0 : XMLTagType)
    (nl : Option (List Char × Option Char × List Char) × List Nat) (pre : List Nat) :
    (finishTag ty0 nl pre).2 = pre ++ nl.2 := by
  unfold finishTag
  split
  · rfl
  · split
    · rfl
    · rfl
    · split
      · split <;> rfl
      · rfl
    · split
      · exact attrPhase_snd _ _ _ _ _ _
      · rfl
    · rfl

theorem readXMLTagWrites_lt (s : List Char) : ∀ j ∈ readXMLTagWrites s, j < 200 := by
  intro j hj
  simp only [readXMLTagWrites, readXMLTagCore] at hj
  split at hj <;> split at hj <;> rw [finishTag_snd] at hj
  · simp only [List.nil_append] at hj
    exact tagNameLoop_writes _ _ _ _ (by omega) j hj
  · simp only [List.singleton_append, List.mem_cons] at hj
    rcases hj with rfl | hj
    · omega
    · exact tagNameLoop_writes _ _ _ _ (by omega) j hj
  · simp only [List.nil_append] at hj
    exact tagNameLoop_writes _ _ _ _ (by omega) j hj
  · simp only [List.singleton_append, List.mem_cons] at hj
    rcases hj with rfl | hj
    · omega
    · exact tagNameLoop_writes _ _ _ _ (by omega) j hj

/-- Claim C4: a tag name of at least `XML_BUFFER_LENGTH` (200) non-terminator
characters makes `readXMLTag` hit its `i >= XML_BUFFER_LENGTH` check, log a
buffer-full error and return NULL; and on every input, every index of the
scratch buffer that `readXMLTag` writes is strictly below the capacity. -/
theorem readXMLTag_overflow :
    ∀ (nm rest : List Char),
      200 ≤ nm.length →
      (∀ c ∈ nm, c ≠ ' ' ∧ c ≠ '>' ∧ c ≠ '/' ∧ c ≠ '<') →
      readXMLTag (nm ++ rest) = .err .bufferFull
      ∧ ∀ (s : List Char) (j : Nat), j ∈ readXMLTagWrites s → j < 200 := by
  intro nm rest hlen hgood
  refine ⟨?_, fun s j hj => readXMLTagWrites_lt s j hj⟩
  cases nm with
  | nil => simp at hlen
  | cons c0 nm1 =>
    cases nm1 with
    | nil => simp at hlen
    | cons c1 cs =>
      have h0 := hgood c0 (by simp)
      have h1 := hgood c1 (by simp)
      have hcs : ∀ x ∈ cs, ¬(x = ' ' ∨ x = '>' ∨ x = '/') := by
        intro x hx
        have := hgood x (by simp [hx])
        simp only [not_or]
        exact ⟨this.1, this.2.1, this.2.2.1⟩
      have hlen2 : 200 ≤ 1 + 1 + cs.length := by
        simp only [List.length_cons] at hlen; omega
      have hloop := tagNameLoop_overflow cs c1 rest 1 [cbChar (some c0)]
        (by simp only [not_or]; exact ⟨h1.1, h1.2.1, h1.2.2.1⟩) hcs hlen2
      have hfin : ∀ nl : Option (List Char × Option Char × List Char) × List Nat,
          nl.1 = none → (finishTag .UNKNOWN nl [0]).1 = .err .bufferFull := by
        intro nl hnl
        unfold finishTag
        split
        · rfl
        · rename_i heq
          rw [hnl] at heq
          exact Option.noConfusion heq
      unfold readXMLTag readXMLTagCore
      simp only [List.cons_append, fgetc, h0.2.2.2, h0.2.2.1, Option.some.injEq,
        if_false, ite_false, if_neg, not_false_iff]
      exact hfin _ hloop

/-- Claim C4 witness: a 200-character tag name overflows. -/
theorem readXMLTag_overflow_witness :
    (200 ≤ (List.replicate 200 'a').length
     ∧ ∀ c ∈ List.replicate 200 'a', c ≠ ' ' ∧ c ≠ '>' ∧ c ≠ '/' ∧ c ≠ '<')
    ∧ readXMLTag (List.replicate 200 'a' ++ []) = .err .bufferFull := by
  have h1 : 200 ≤ (List.replicate 200 'a').length := by rw [List.length_replicate]
  have h2 : ∀ c ∈ List.replicate 200 'a', c ≠ ' ' ∧ c ≠ '>' ∧ c ≠ '/' ∧ c ≠ '<' := by
    intro c hc
    rw [List.eq_of_mem_replicate hc]
    exact ⟨by decide, by decide, by decide, by decide⟩
  exact ⟨⟨h1, h2⟩, (readXMLTag_overflow (List.replicate 200 'a') [] h1 h2).1⟩

theorem ccOk_mk (n : List Char) (v : Option (List Char)) (a : List XMLAttribute)
    (cs : List XMLNode) (cc : Nat) :
    ccOk (.mk n v a cs cc) = ((cc == cs.length) && ccOkList cs) := by
  rw [ccOk]

theorem ccOkList_nil : ccOkList [] = true := by
  rw [ccOkList]

theorem ccOkList_snoc (l : List XMLNode) (c : XMLNode) :
    ccOkList (l ++ [c]) = (ccOkList l && ccOk c) := by
  rw [ccOkList_append]
  simp [ccOkList]

theorem frameOK_finish (f : Frame) (h : frameOK f 0) : ccOk (finishNode f) = true := by
  obtain ⟨h1, h2⟩ := h
  rw [finishNode, ccOk_mk, h2]
  simp [h1]

theorem frameOK_add (p : Frame) (c : XMLNode) (hp : frameOK p 0) (hc : ccOk c = true) :
    frameOK (addXMLNodeToParent p c) 0 := by
  obtain ⟨h1, h2⟩ := hp
  obtain ⟨e1, e2, _⟩ := addXMLNodeToParent_spec p c
  constructor
  · rw [e1, e2, h1]
    simp
  · rw [e2, ccOkList_snoc, h2, hc]
    rfl

theorem frameOK_close (f cur : Frame) (hf : frameOK f 1) (hc : frameOK cur 0) :
    frameOK (closeInto f cur) 0 := by
  obtain ⟨h1, h2⟩ := hf
  constructor
  · show (closeInto f cur).cc = (closeInto f cur).children.length + 0
    simp [closeInto, h1]
  · show ccOkList (closeInto f cur).children = true
    simp only [closeInto]
    rw [ccOkList_snoc, h2, frameOK_finish cur hc]
    rfl

theorem addXMLNodeToParent_name (p : Frame) (c : XMLNode) :
    (addXMLNodeToParent p c).name = p.name := by
  cases h : p.children <;> simp [addXMLNodeToParent, h]

theorem parseLoop_cc :
    ∀ (fuel : Nat) (s : List Char) (cur : Frame) (stack : List Frame)
      (root : XMLNode) (rest : List Char),
      frameOK cur 0 → (∀ f ∈ stack, frameOK f 1) →
      parseLoop fuel s cur stack = .ok root rest → ccOk root = true := by
  intro fuel
  induction fuel with
  | zero =>
    intro s cur stack root rest _ _ h
    exact ParseOut.noConfusion h
  | succ fuel ih =>
    intro s cur stack root rest hcur hstack h
    simp only [parseLoop] at h
    have hv := readXMLNodeValue_fst cur s
    have hcur1 : frameOK (readXMLNodeValue cur s).1 0 := by
      unfold frameOK at hcur ⊢
      rw [hv.2.1, hv.2.2]
      exact hcur
    split at h
    · exact ParseOut.noConfusion h
    · exact ParseOut.noConfusion h
    · split at h
      · -- OPENING
        refine ih _ _ _ _ _ ⟨rfl, ccOkList_nil⟩ ?_ h
        intro f hf
        rcases List.mem_cons.mp hf with rfl | hf
        · obtain ⟨h1, h2⟩ := hcur1
          exact ⟨by simp [bumpCC, h1], by simpa [bumpCC] using h2⟩
        · exact hstack f hf
      · -- UNIQUE
        refine ih _ _ _ _ _ ?_ hstack h
        refine frameOK_add _ _ hcur1 ?_
        rw [initXMLNodeFromXMLTag, ccOk_mk, ccOkList_nil]
        simp
      · -- CLOSING
        cases stack with
        | cons f rest2 =>
          refine ih _ _ _ _ _ (frameOK_close f _ (hstack f (by simp)) hcur1) ?_ h
          intro g hg
          exact hstack g (by simp [hg])
        | nil =>
          injection h with h1 h2
          rw [← h1]
          exact frameOK_finish _ hcur1
      · -- UNKNOWN
        exact ih _ _ _ _ _ hcur1 hstack h

theorem getLastD_name (stack : List Frame) (f g : Frame) (h : f.name = g.name) :
    (stack.getLastD f).name = (stack.getLastD g).name := by
  cases stack with
  | nil =>
    rw [List.getLastD_nil, List.getLastD_nil]
    exact h
  | cons a l => rw [List.getLastD_cons, List.getLastD_cons]

theorem parseLoop_rootName :
    ∀ (fuel : Nat) (s : List Char) (cur : Frame) (stack : List Frame)
      (root : XMLNode) (rest : List Char),
      parseLoop fuel s cur stack = .ok root rest →
      root.name = (stack.getLastD cur).name := by
  intro fuel
  induction fuel with
  | zero =>
    intro s cur stack root rest h
    exact ParseOut.noConfusion h
  | succ fuel ih =>
    intro s cur stack root rest h
    simp only [parseLoop] at h
    have hv := (readXMLNodeValue_fst cur s).1
    split at h
    · exact ParseOut.noConfusion h
    · exact ParseOut.noConfusion h
    · split at h
      · -- OPENING
        rw [ih _ _ _ _ _ h, List.getLastD_cons]
        exact getLastD_name stack _ cur (by simp [bumpCC, hv])
      · -- UNIQUE
        rw [ih _ _ _ _ _ h]
        exact getLastD_name stack _ cur
          ((addXMLNodeToParent_name _ _).trans hv)
      · -- CLOSING
        cases stack with
        | cons f rest2 =>
          rw [ih _ _ _ _ _ h, List.getLastD_cons]
          exact getLastD_name rest2 _ f (by simp [closeInto])
        | nil =>
          injection h with h1 h2
          rw [← h1, List.getLastD_nil]
          show (finishNode _).name = cur.name
          rw [finishNode]
          exact hv
      · -- UNKNOWN
        rw [ih _ _ _ _ _ h]
        exact getLastD_name stack _ cur hv

/-- Claim C6: `<a><b></a>` is rejected — after `</a>` ascends from `b` to `a`
(the source never compares closing-tag names), the input ends with `a` still
open, which is the "No tag remaining, and tree isn't finished" failure of
`parseXMLFile`, i.e. the spec's UnbalancedTags ("root never closed"); no tree
is returned.  And in general the loop can only succeed through the CLOSING
branch with an empty ancestor stack, so the returned tree is built from the
bottom frame of the zipper — the node open at the terminal state is the root
(the source's `root != current` check cannot fire). -/
theorem unbalanced_rejected :
    (parseXMLFile "<a><b></a>".toList = .err .treeUnfinished)
    ∧ (∀ (fuel : Nat) (s : List Char) (cur : Frame) (stack : List Frame)
        (root : XMLNode) (rest : List Char),
        parseLoop fuel s cur stack = .ok root rest →
        root.name = (stack.getLastD cur).name) :=
  ⟨rfl, parseLoop_rootName⟩

/-- Claim C6 witness: a closing tag at the root ends parsing with the root
frame itself. -/
theorem unbalanced_rejected_witness :
    (parseLoop 5 "</a>".toList ⟨"a".toList, none, [], [], 0⟩ [] =
      .ok (XMLNode.mk "a".toList none [] [] 0) [])
    ∧ (XMLNode.mk "a".toList none [] [] 0).name =
      (([] : List Frame).getLastD ⟨"a".toList, none, [], [], 0⟩).name :=
  ⟨rfl, unbalanced_rejected.2 5 "</a>".toList ⟨"a".toList, none, [], [], 0⟩ [] _ _ rfl⟩

/-- Claim C8: on every successful parse, every node of the returned tree has
`cc` equal to the length of the sibling chain walked from `first` (the
`children` list, whose head is `first` and whose final element is `last`);
and each `addXMLNodeToParent` append makes the new child the last of the
chain while increasing `cc` by exactly one. -/
theorem childCount_invariant :
    (∀ (s : List Char) (root : XMLNode) (rest : List Char),
      parseXMLFile s = .ok root rest → ccOk root = true)
    ∧ ∀ (p : Frame) (c : XMLNode),
        (addXMLNodeToParent p c).cc = p.cc + 1
        ∧ (addXMLNodeToParent p c).children = p.children ++ [c]
        ∧ (addXMLNodeToParent p c).children.getLast? = some c := by
  refine ⟨?_, addXMLNodeToParent_spec⟩
  intro s root rest h
  unfold parseXMLFile at h
  split at h
  · exact ParseOut.noConfusion h
  · exact ParseOut.noConfusion h
  · split at h
    · exact ParseOut.noConfusion h
    · injection h with h1 h2
      rw [← h1, initXMLNodeFromXMLTag, ccOk_mk, ccOkList_nil]
      simp
    · exact parseLoop_cc _ _ _ _ _ _ ⟨rfl, ccOkList_nil⟩
        (fun f hf => absurd hf (List.not_mem_nil f)) h

/-- Claim C8 witness: the tree parsed from `<a><b/></a>` satisfies the
counter invariant. -/
theorem childCount_invariant_witness :
    ccOk (XMLNode.mk "a".toList none [] [XMLNode.mk "b".toList none [] [] 0] 1) = true :=
  childCount_invariant.1 "<a><b/></a>".toList _ [] rfl

theorem takeSeg_len :
    ∀ path : List Char, (takeSeg path).2.1 ≠ '\x00' → (takeSeg path).2.2.length < path.length := by
  intro path
  induction path with
  | nil => intro h; simp [takeSeg] at h
  | cons c cs ih =>
    intro h
    by_cases hc : c = '/' ∨ c = ':' ∨ c = '$' ∨ c = '\x00'
    · simp [takeSeg, hc]
    · simp only [takeSeg, if_neg hc] at h ⊢
      have := ih h
      simp only [List.length_cons]
      omega

theorem takeSeg_append (seg : List Char) (d : Char) (rest : List Char)
    (hseg : goodSeg seg) (hd : d = '/' ∨ d = ':' ∨ d = '$') :
    takeSeg (seg ++ d :: rest) = (seg, d, rest) := by
  induction seg with
  | nil =>
    have hd2 : d = '/' ∨ d = ':' ∨ d = '$' ∨ d = '\x00' := by tauto
    simp [takeSeg, hd2]
  | cons c cs ih =>
    have hc := hseg c (by simp)
    have hcs : goodSeg cs := fun x hx => hseg x (by simp [hx])
    have hnc : ¬(c = '/' ∨ c = ':' ∨ c = '$' ∨ c = '\x00') := by
      simp only [not_or]
      exact ⟨hc.1, hc.2.1, hc.2.2.1, hc.2.2.2⟩
    simp only [List.cons_append, takeSeg, if_neg hnc, List.append_eq, ih hcs]

theorem getXMLValueGo_stop (f : Nat) (path : List Char) (ns : List XMLNode)
    (seg rest : List Char) (ht : takeSeg path = (seg, '\x00', rest)) :
    getXMLValueGo (f + 1) path ns = .error .endOfPath := by
  simp only [getXMLValueGo, ht]
  simp

theorem getXMLValueGo_nil (fuel : Nat) (ns : List XMLNode) :
    getXMLValueGo fuel [] ns = .error .endOfPath := by
  cases fuel with
  | zero => rfl
  | succ f => exact getXMLValueGo_stop f [] ns [] [] rfl

theorem getXMLValueGo_step (f : Nat) (path : List Char) (ns : List XMLNode)
    (seg : List Char) (d : Char) (rest : List Char)
    (ht : takeSeg path = (seg, d, rest)) (hd : d ≠ '\x00') :
    getXMLValueGo (f + 1) path ns =
      (match findSuffix seg ns with
       | none => Except.error GetValueErr.nameNotFound
       | some (n, tail) =>
         if d = '/' then getXMLValueGo f rest n.children
         else if d = '$' then
           (match n.value with
            | some v => Except.ok v
            | none => getXMLValueGo f rest (n :: tail))
         else
           (match findAttr rest n.attr with
            | some a => Except.ok a.value
            | none => Except.error GetValueErr.attrNotFound)) := by
  simp only [getXMLValueGo, ht]
  rw [if_neg hd]

theorem getXMLValueGo_congr :
    ∀ (f1 f2 : Nat) (path : List Char) (ns : List XMLNode),
      path.length < f1 → path.length < f2 →
      getXMLValueGo f1 path ns = getXMLValueGo f2 path ns := by
  intro f1
  induction f1 with
  | zero => intro f2 path ns h1 _; omega
  | succ f ih =>
    intro f2 path ns h1 h2
    cases f2 with
    | zero => omega
    | succ g =>
      obtain ⟨seg, d, rest, ht⟩ : ∃ seg d rest, takeSeg path = (seg, d, rest) :=
        ⟨_, _, _, rfl⟩
      by_cases h0 : d = '\x00'
      · subst h0
        rw [getXMLValueGo_stop f path ns seg rest ht,
          getXMLValueGo_stop g path ns seg rest ht]
      · have hlen : rest.length < path.length := by
          have h3 := takeSeg_len path (by rw [ht]; exact h0)
          rw [ht] at h3
          exact h3
        rw [getXMLValueGo_step f path ns seg d rest ht h0,
          getXMLValueGo_step g path ns seg d rest ht h0]
        cases hfind : findSuffix seg ns with
        | none => rfl
        | some p =>
          obtain ⟨n, tail⟩ := p
          simp only [hfind]
          by_cases hsl : d = '/'
          · rw [if_pos hsl, if_pos hsl]
            exact ih g _ _ (by omega) (by omega)
          · rw [if_neg hsl, if_neg hsl]
            by_cases hdol : d = '$'
            · rw [if_pos hdol, if_pos hdol]
              cases hv : n.value with
              | some v => rfl
              | none =>
                simp only [hv]
                exact ih g _ _ (by omega) (by omega)
            · rw [if_neg hdol, if_neg hdol]

theorem getXMLValue_slash (seg rest : List Char) (sibs : List XMLNode) (hseg : goodSeg seg) :
    getXMLValue (seg ++ '/' :: rest) sibs =
      (match findSuffix seg sibs with
       | none => Except.error GetValueErr.nameNotFound
       | some (n, _) => getXMLValue rest n.children) := by
  unfold getXMLValue
  rw [getXMLValueGo_step _ _ _ seg '/' rest
    (takeSeg_append seg '/' rest hseg (Or.inl rfl)) (by decide)]
  cases hfind : findSuffix seg sibs with
  | none => rfl
  | some p =>
    obtain ⟨n, tail⟩ := p
    have hc := getXMLValueGo_congr (seg.length + (rest.length + 1)) (rest.length + 1)
      rest n.children (by omega) (by omega)
    simp [hc]

theorem resolves_go :
    ∀ (path : List Char) (sibs : List XMLNode) (n : XMLNode),
      Resolves path sibs n →
      ∀ fuel : Nat, path.length < fuel →
      getXMLValueGo fuel (path ++ ['$']) sibs =
        (match n.value with
         | some v => Except.ok v
         | none => Except.error GetValueErr.endOfPath) := by
  intro path sibs n h
  induction h with
  | last seg sibs2 n2 tail hseg hfind =>
    intro fuel hf
    obtain ⟨f, rfl⟩ : ∃ f, fuel = f + 1 := ⟨fuel - 1, by omega⟩
    rw [getXMLValueGo_step f _ sibs2 seg '$' []
      (takeSeg_append seg '$' [] hseg (by simp)) (by decide)]
    cases hv : n2.value with
    | some v => simp [hfind, hv]
    | none => simp [hfind, hv, getXMLValueGo_nil]
  | step seg rest sibs2 m tail n2 hseg hfind hrest ih =>
    intro fuel hf
    obtain ⟨f, rfl⟩ : ∃ f, fuel = f + 1 := ⟨fuel - 1, by omega⟩
    have hassoc : (seg ++ '/' :: rest) ++ ['$'] = seg ++ '/' :: (rest ++ ['$']) := by simp
    rw [hassoc]
    rw [getXMLValueGo_step f _ sibs2 seg '/' (rest ++ ['$'])
      (takeSeg_append seg '/' (rest ++ ['$']) hseg (by simp)) (by decide)]
    have hih := ih f (by simp only [List.length_append, List.length_cons] at hf; omega)
    simp [hfind, hih]

/-- Claim C7: on the tree parsed from
`<root><foo><bar baz="1">hi</bar></foo></root>`, `getXMLValue` returns `hi`
for `root/foo/bar$`, `1` for `root/foo/bar:baz`, and the name-not-found
failure for `root/foo/missing$`; in general every `/`-terminated segment is
resolved by scanning the sibling chain at the current level (starting at the
root itself) case-sensitively for the first name match, descending into
`first` after the `/`, and failing with the not-found error when no sibling
matches. -/
theorem getXMLValue_queries :
    (parseXMLFile "<root><foo><bar baz=\"1\">hi</bar></foo></root>".toList =
      .ok (XMLNode.mk "root".toList none []
            [XMLNode.mk "foo".toList none []
              [XMLNode.mk "bar".toList (some "hi".toList)
                [⟨"baz".toList, "1".toList⟩] [] 0] 1] 1) [])
    ∧ (getXMLValue "root/foo/bar$".toList
        [XMLNode.mk "root".toList none []
          [XMLNode.mk "foo".toList none []
            [XMLNode.mk "bar".toList (some "hi".toList)
              [⟨"baz".toList, "1".toList⟩] [] 0] 1] 1] = .ok "hi".toList)
    ∧ (getXMLValue "root/foo/bar:baz".toList
        [XMLNode.mk "root".toList none []
          [XMLNode.mk "foo".toList none []
            [XMLNode.mk "bar".toList (some "hi".toList)
              [⟨"baz".toList, "1".toList⟩] [] 0] 1] 1] = .ok "1".toList)
    ∧ (getXMLValue "root/foo/missing$".toList
        [XMLNode.mk "root".toList none []
          [XMLNode.mk "foo".toList none []
            [XMLNode.mk "bar".toList (some "hi".toList)
              [⟨"baz".toList, "1".toList⟩] [] 0] 1] 1] = .error .nameNotFound)
    ∧ (∀ (seg rest : List Char) (sibs : List XMLNode), goodSeg seg →
        getXMLValue (seg ++ '/' :: rest) sibs =
          (match findSuffix seg sibs with
           | none => Except.error GetValueErr.nameNotFound
           | some (n, _) => getXMLValue rest n.children)) :=
  ⟨rfl, rfl, rfl, rfl, getXMLValue_slash⟩

/-- Claim C7 witness: a concrete instance of the general segment step. -/
theorem getXMLValue_queries_witness :
    goodSeg ['q']
    ∧ getXMLValue (['q'] ++ '/' :: []) [] =
      (match findSuffix ['q'] ([] : List XMLNode) with
       | none => Except.error GetValueErr.nameNotFound
       | some (n, _) => getXMLValue [] n.children) :=
  ⟨by unfold goodSeg; decide,
   getXMLValue_queries.2.2.2.2 ['q'] [] [] (by unfold goodSeg; decide)⟩

/-- Claim C9 (counterexample): on a node without a stored value, a `$` query
does not "terminate normally without error": `getXMLValue` loops once more
past the `$`, reads an empty trailing segment, and exits through the
"Reached end of path without ':' or '$'" diagnostic, so the NULL it returns
is an error return, not a plain absent value. -/
theorem valueAbsent_cex :
    (getXMLValue "b$".toList [XMLNode.mk "b".toList none [] [] 0] =
      .error .endOfPath)
    ∧ ∀ v, getXMLValue "b$".toList [XMLNode.mk "b".toList none [] [] 0] ≠
        Except.ok v := by
  refine ⟨rfl, ?_⟩
  intro v h
  exact Except.noConfusion
    ((rfl : Except.error GetValueErr.endOfPath =
      getXMLValue "b$".toList [XMLNode.mk "b".toList none [] [] 0]).trans h)

/-- Claim C9 (amended): for every path whose node segments all resolve and
which ends in `$`, `getXMLValue` returns the resolved node's stored value
when there is one; when the node has no stored value the function still
returns NULL, but it reaches that result by looping past the `$`, reading an
empty trailing segment, and reporting the end-of-path error diagnostic — not
by a normal error-free return. -/
theorem valueAbsent_amended :
    ∀ (path : List Char) (sibs : List XMLNode) (n : XMLNode),
      Resolves path sibs n →
      getXMLValue (path ++ ['$']) sibs =
        (match n.value with
         | some v => Except.ok v
         | none => Except.error GetValueErr.endOfPath) := by
  intro path sibs n h
  unfold getXMLValue
  refine resolves_go path sibs n h _ ?_
  simp only [List.length_append, List.length_cons, List.length_nil]
  omega

/-- Claim C9 witness: a one-segment path resolving to a node with a value,
and one resolving to a node without. -/
theorem valueAbsent_amended_witness :
    (getXMLValue (['a'] ++ ['$']) [XMLNode.mk ['a'] (some ['w']) [] [] 0] =
      Except.ok ['w'])
    ∧ (getXMLValue (['c'] ++ ['$']) [XMLNode.mk ['c'] none [] [] 0] =
      Except.error GetValueErr.endOfPath) :=
  ⟨valueAbsent_amended ['a'] [XMLNode.mk ['a'] (some ['w']) [] [] 0]
      (XMLNode.mk ['a'] (some ['w']) [] [] 0)
      (.last ['a'] _ _ [] (by unfold goodSeg; decide) rfl),
   valueAbsent_amended ['c'] [XMLNode.mk ['c'] none [] [] 0]
      (XMLNode.mk ['c'] none [] [] 0)
      (.last ['c'] _ _ [] (by unfold goodSeg; decide) rfl)⟩

theorem updA_get?_self (a : Arena) (i : Nat) (f : CNode → CNode) (n : CNode)
    (h : a.get? i = some n) : (updA a i f).get? i = some (f n) := by
  unfold updA
  rw [h, List.get?_set_eq, h]
  rfl

theorem updA_get?_other (a : Arena) (i : Nat) (f : CNode → CNode) (j : Nat)
    (h : i ≠ j) : (updA a i f).get? j = a.get? j := by
  unfold updA
  cases hg : a.get? i with
  | none => rfl
  | some n => exact List.get?_set_ne _ _ h

theorem parentOf_updA (a : Arena) (i : Nat) (f : CNode → CNode)
    (hf : ∀ n, (f n).parent = n.parent) (x : Nat) :
    parentOf (updA a i f) x = parentOf a x := by
  by_cases hx : x = i
  · subst hx
    cases hg : a.get? x with
    | none =>
      unfold updA
      rw [hg]
    | some n =>
      unfold parentOf
      rw [updA_get?_self a x f n hg, hg]
      exact hf n
  · unfold parentOf
    rw [updA_get?_other a i f x (fun he => hx he.symm)]

theorem addPtr_parentOf (a : Arena) (pi ci : Nat) (p c : CNode)
    (hp : a.get? pi = some p) (hc : a.get? ci = some c)
    (hpar : c.parent = none) (hprev : c.previous = none) (hnext : c.next = none)
    (hne : pi ≠ ci) (x : Nat) :
    parentOf (addXMLNodeToParentPtr a (some pi) (some ci)) x =
      if x = ci then some pi else parentOf a x := by
  have ha2p : (updA (updA a ci (fun n => { n with parent := some pi })) pi
      (fun n => { n with cc := n.cc + 1 })).get? pi
      = some { p with cc := p.cc + 1 } :=
    updA_get?_self _ pi _ p
      ((updA_get?_other a ci _ pi (fun he => hne he.symm)).trans hp)
  simp only [addXMLNodeToParentPtr, hp, hc]
  rw [if_neg (show ¬c.parent ≠ none from by rw [hpar]; exact fun h => h rfl)]
  rw [if_neg (show ¬(c.previous ≠ none ∨ c.next ≠ none) from by
    rw [hprev, hnext]
    rintro (h | h) <;> exact h rfl)]
  simp only [ha2p]
  split
  · rw [parentOf_updA _ _
        (fun n => ({ n with first := some ci, current := some ci, last := some ci } : CNode))
        (fun n => rfl) x,
      parentOf_updA _ _ (fun n => ({ n with cc := n.cc + 1 } : CNode)) (fun n => rfl) x]
    by_cases hx : x = ci
    · subst hx
      rw [if_pos rfl]
      unfold parentOf
      rw [updA_get?_self a x _ c hc]
    · rw [if_neg hx]
      unfold parentOf
      rw [updA_get?_other a ci _ x (fun he => hx he.symm)]
  · rename_i l hl
    rw [parentOf_updA _ _ (fun n => ({ n with last := some ci } : CNode)) (fun n => rfl) x,
      parentOf_updA _ _ (fun n => ({ n with previous := some l } : CNode)) (fun n => rfl) x,
      parentOf_updA _ _ (fun n => ({ n with next := some ci } : CNode)) (fun n => rfl) x,
      parentOf_updA _ _ (fun n => ({ n with cc := n.cc + 1 } : CNode)) (fun n => rfl) x]
    by_cases hx : x = ci
    · subst hx
      rw [if_pos rfl]
      unfold parentOf
      rw [updA_get?_self a x _ c hc]
    · rw [if_neg hx]
      unfold parentOf
      rw [updA_get?_other a ci _ x (fun he => hx he.symm)]

theorem addPtr_childLinked (a : Arena) (pi ci : Nat) (p c : CNode)
    (hp : a.get? pi = some p) (hc : a.get? ci = some c)
    (hpar : c.parent = none) (hprev : c.previous = none) (hnext : c.next = none)
    (hne : pi ≠ ci) (hlast : p.last ≠ some ci) :
    ∃ c2, (addXMLNodeToParentPtr a (some pi) (some ci)).get? ci = some c2 ∧
      c2.parent = some pi := by
  have ha1c : (updA a ci (fun n => { n with parent := some pi })).get? ci
      = some { c with parent := some pi } := updA_get?_self a ci _ c hc
  have ha2c : (updA (updA a ci (fun n => { n with parent := some pi })) pi
      (fun n => { n with cc := n.cc + 1 })).get? ci
      = some { c with parent := some pi } :=
    (updA_get?_other _ pi _ ci hne).trans ha1c
  have ha2p : (updA (updA a ci (fun n => { n with parent := some pi })) pi
      (fun n => { n with cc := n.cc + 1 })).get? pi
      = some { p with cc := p.cc + 1 } :=
    updA_get?_self _ pi _ p
      ((updA_get?_other a ci _ pi (fun he => hne he.symm)).trans hp)
  simp only [addXMLNodeToParentPtr, hp, hc]
  rw [if_neg (show ¬c.parent ≠ none from by rw [hpar]; exact fun h => h rfl)]
  rw [if_neg (show ¬(c.previous ≠ none ∨ c.next ≠ none) from by
    rw [hprev, hnext]
    rintro (h | h) <;> exact h rfl)]
  simp only [ha2p]
  split
  · refine ⟨{ c with parent := some pi }, ?_, rfl⟩
    rw [updA_get?_other _ pi _ ci hne]
    exact ha2c
  · rename_i l hl
    have hlci : l ≠ ci := fun he => hlast (by rw [hl, he])
    refine ⟨{ c with parent := some pi, previous := some l }, ?_, rfl⟩
    rw [updA_get?_other _ pi _ ci hne]
    have hXc : (updA (updA (updA a ci (fun n => { n with parent := some pi })) pi
        (fun n => { n with cc := n.cc + 1 })) l
        (fun n => { n with next := some ci })).get? ci
        = some { c with parent := some pi } :=
      (updA_get?_other _ l _ ci hlci).trans ha2c
    rw [updA_get?_self _ ci _ _ hXc]

theorem parentIter_add (a : Arena) :
    ∀ (m n i : Nat),
      parentIter a (m + n) i = (parentIter a m i).bind (fun j => parentIter a n j) := by
  intro m
  induction m with
  | zero =>
    intro n i
    rw [Nat.zero_add]
    rfl
  | succ m ih =>
    intro n i
    rw [show m + 1 + n = m + n + 1 from by omega]
    simp only [parentIter]
    cases h : parentOf a i with
    | none => rfl
    | some j => simp [ih]

theorem iter_avoid (a b : Arena) (ci pi : Nat)
    (hpo : ∀ x, parentOf b x = if x = ci then some pi else parentOf a x) :
    ∀ (k x : Nat), (∀ j, j < k → parentIter b j x ≠ some ci) →
      parentIter b k x = parentIter a k x := by
  intro k
  induction k with
  | zero => intro x _; rfl
  | succ k ih =>
    intro x h
    have hx : x ≠ ci := by
      intro he
      exact h 0 (by omega) (by rw [he]; rfl)
    simp only [parentIter]
    rw [hpo x, if_neg hx]
    cases hpa : parentOf a x with
    | none => rfl
    | some y =>
      refine ih y ?_
      intro j hj he
      refine h (j + 1) (by omega) ?_
      simp only [parentIter]
      rw [hpo x, if_neg hx, hpa]
      exact he

theorem iter_reach (a b : Arena) (ci pi : Nat)
    (hpo : ∀ x, parentOf b x = if x = ci then some pi else parentOf a x) :
    ∀ (k x : Nat), parentIter b k x = some ci →
      ∃ j, j ≤ k ∧ parentIter a j x = some ci := by
  intro k
  induction k using Nat.strong_induction_on with
  | _ k ih =>
    intro x hx
    by_cases hex : ∃ j, j < k ∧ parentIter b j x = some ci
    · obtain ⟨j, hj, hje⟩ := hex
      obtain ⟨j2, hj2, he2⟩ := ih j hj x hje
      exact ⟨j2, by omega, he2⟩
    · push_neg at hex
      have ht := iter_avoid a b ci pi hpo k x (fun j hj => hex j hj)
      exact ⟨k, le_refl k, by rw [← ht]; exact hx⟩

theorem addPtr_acyclic (a b : Arena) (ci pi : Nat)
    (hpo : ∀ x, parentOf b x = if x = ci then some pi else parentOf a x)
    (hchain : ∀ k, parentIter a k pi ≠ some ci)
    (hacyc : ∀ (i k : Nat), parentIter a (k + 1) i ≠ some i) :
    ∀ (i k : Nat), parentIter b (k + 1) i ≠ some i := by
  intro i k hcyc
  by_cases hex : ∃ j, j ≤ k + 1 ∧ parentIter b j i = some ci
  · obtain ⟨j, hj, hje⟩ := hex
    have h1 : parentIter b (k + 1 - j) ci = some i := by
      have hadd := parentIter_add b j (k + 1 - j) i
      rw [show j + (k + 1 - j) = k + 1 from by omega] at hadd
      have h2 := hadd.symm.trans hcyc
      rw [hje] at h2
      simpa using h2
    have h2 : parentIter b (k + 1) ci = some ci := by
      have hadd := parentIter_add b (k + 1 - j) j ci
      rw [show k + 1 - j + j = k + 1 from by omega] at hadd
      rw [hadd, h1]
      simpa using hje
    have h3 : parentIter b k pi = some ci := by
      simp only [parentIter] at h2
      rw [hpo ci, if_pos rfl] at h2
      exact h2
    obtain ⟨j2, _, he2⟩ := iter_reach a b ci pi hpo k pi h3
    exact hchain j2 he2
  · push_neg at hex
    have ht := iter_avoid a b ci pi hpo (k + 1) i (fun j hj => hex j (by omega))
    exact hacyc i k (by rw [← ht]; exact hcyc)

theorem addPtr_noop (a : Arena) (pi ci : Nat) (c : CNode)
    (hc : a.get? ci = some c)
    (h : c.parent ≠ none ∨ c.previous ≠ none ∨ c.next ≠ none) :
    addXMLNodeToParentPtr a (some pi) (some ci) = a := by
  cases hg : a.get? pi with
  | none => simp only [addXMLNodeToParentPtr, hc, hg]
  | some p =>
    simp only [addXMLNodeToParentPtr, hc, hg]
    rcases h with h | h | h
    · rw [if_pos h]
    · rw [if_pos (Or.inl h), ite_self]
    · rw [if_pos (Or.inr h), ite_self]

/-- Claim C10 (counterexample): `addXMLNodeToParent` never checks that the
child is distinct from the parent, so attaching a fresh node to *itself*
passes every guard — the node ends up being its own parent, hence its own
ancestor, refuting "no node ever becomes its own ancestor". -/
theorem selfParent_cex :
    (addXMLNodeToParentPtr
        [⟨['n'], none, [], none, none, none, none, none, none, 0⟩]
        (some 0) (some 0) =
      [⟨['n'], none, [], some 0, none, none, some 0, some 0, some 0, 1⟩])
    ∧ ∃ k, parentIter
        (addXMLNodeToParentPtr
          [⟨['n'], none, [], none, none, none, none, none, none, 0⟩]
          (some 0) (some 0)) (k + 1) 0 = some 0 :=
  ⟨rfl, 0, rfl⟩

/-- Claim C10 (amended): `addXMLNodeToParent` attaches a child only when the
child has no parent and no previous/next sibling, and in every other case —
including NULL arguments — it leaves the arena completely unchanged, so a
node is linked under a parent at most once; acyclicity, however, is only
preserved when the child is not the parent itself and not an ancestor of the
parent (for example a freshly created node, as during parsing): under that
extra hypothesis no node becomes its own ancestor, but the function's own
guards do not enforce it. -/
theorem addNode_guards_amended :
    (∀ (a : Arena) (x : Option Nat), addXMLNodeToParentPtr a none x = a)
    ∧ (∀ (a : Arena) (pi : Nat), addXMLNodeToParentPtr a (some pi) none = a)
    ∧ (∀ (a : Arena) (pi ci : Nat) (c : CNode), a.get? ci = some c →
        (c.parent ≠ none ∨ c.previous ≠ none ∨ c.next ≠ none) →
        addXMLNodeToParentPtr a (some pi) (some ci) = a)
    ∧ (∀ (a : Arena) (pi ci : Nat) (p c : CNode),
        a.get? pi = some p → a.get? ci = some c →
        c.parent = none → c.previous = none → c.next = none →
        pi ≠ ci → p.last ≠ some ci →
        (∃ c2, (addXMLNodeToParentPtr a (some pi) (some ci)).get? ci = some c2 ∧
          c2.parent = some pi)
        ∧ ((∀ k, parentIter a k pi ≠ some ci) →
            (∀ (i k : Nat), parentIter a (k + 1) i ≠ some i) →
            ∀ (i k : Nat),
              parentIter (addXMLNodeToParentPtr a (some pi) (some ci)) (k + 1) i ≠
                some i)) := by
  refine ⟨fun a x => rfl, fun a pi => rfl, addPtr_noop, ?_⟩
  intro a pi ci p c hp hc hpar hprev hnext hne hlast
  refine ⟨addPtr_childLinked a pi ci p c hp hc hpar hprev hnext hne hlast, ?_⟩
  intro hchain hacyc
  exact addPtr_acyclic a (addXMLNodeToParentPtr a (some pi) (some ci)) ci pi
    (addPtr_parentOf a pi ci p c hp hc hpar hprev hnext hne) hchain hacyc

/-- Claim C10 witness: attaching a fresh child (node 1) to a fresh parent
(node 0) links it and keeps the arena acyclic. -/
theorem addNode_guards_amended_witness :
    (∃ c2, (addXMLNodeToParentPtr
        [⟨['p'], none, [], none, none, none, none, none, none, 0⟩,
         ⟨['c'], none, [], none, none, none, none, none, none, 0⟩]
        (some 0) (some 1)).get? 1 = some c2 ∧ c2.parent = some 0)
    ∧ ∀ (i k : Nat),
        parentIter (addXMLNodeToParentPtr
          [⟨['p'], none, [], none, none, none, none, none, none, 0⟩,
           ⟨['c'], none, [], none, none, none, none, none, none, 0⟩]
          (some 0) (some 1)) (k + 1) i ≠ some i := by
  have hpnone : ∀ i : Nat, parentOf
      [(⟨['p'], none, [], none, none, none, none, none, none, 0⟩ : CNode),
       ⟨['c'], none, [], none, none, none, none, none, none, 0⟩] i = none := by
    intro i
    match i with
    | 0 => rfl
    | 1 => rfl
    | n + 2 => rfl
  have hchain : ∀ k, parentIter
      [(⟨['p'], none, [], none, none, none, none, none, none, 0⟩ : CNode),
       ⟨['c'], none, [], none, none, none, none, none, none, 0⟩] k 0 ≠ some 1 := by
    intro k
    cases k with
    | zero => decide
    | succ k2 =>
      simp only [parentIter, hpnone 0]
      exact fun h => Option.noConfusion h
  have hacyc : ∀ (i k : Nat), parentIter
      [(⟨['p'], none, [], none, none, none, none, none, none, 0⟩ : CNode),
       ⟨['c'], none, [], none, none, none, none, none, none, 0⟩] (k + 1) i ≠ some i := by
    intro i k
    simp only [parentIter, hpnone i]
    exact fun h => Option.noConfusion h
  have h := addNode_guards_amended.2.2.2
    [(⟨['p'], none, [], none, none, none, none, none, none, 0⟩ : CNode),
     ⟨['c'], none, [], none, none, none, none, none, none, 0⟩] 0 1
    ⟨['p'], none, [], none, none, none, none, none, none, 0⟩
    ⟨['c'], none, [], none, none, none, none, none, none, 0⟩
    rfl rfl rfl rfl rfl (by decide) (by decide)
  exact ⟨h.1, h.2 hchain hacyc⟩
